import Mathlib

/-!
Verification of the PSSESSION conversion tool (src/PSt_CV.py) against its
specification.  The Python source is shallowly embedded: the payload
extractor (lines 19-40), the scan assembler (lines 43-81) and the tabular
renderer (lines 130-154) become executable Lean functions over a `Json`
value type, with Python's dynamic failures (TypeError, KeyError, ...)
made explicit through `Except PyErr`.
-/

set_option maxHeartbeats 1000000
set_option maxRecDepth 10000

namespace EchemAnalysis

/-- The opening-brace character, written via its code point. -/
def lbrace : Char := Char.ofNat 123

/-- The closing-brace character, written via its code point. -/
def rbrace : Char := Char.ofNat 125

/-- JSON-like values as produced by parsing the embedded payload.  Objects
keep their members as an ordered association list (Python dicts built by
json.loads: later duplicate keys overwrite, key order is first occurrence).
Numbers are restricted to integers in this development; no claim depends on
numeric semantics, values are only passed through. -/
inductive Json where
  | null : Json
  | bool : Bool → Json
  | num : Int → Json
  | str : String → Json
  | arr : List Json → Json
  | obj : List (String × Json) → Json

/-- Python runtime errors that the embedded code can raise; the source
catches all of them uniformly (line 83: except Exception). -/
inductive PyErr where
  | typeError : PyErr
  | keyError : PyErr
  | indexError : PyErr
  | valueError : PyErr
deriving DecidableEq

/-- Output unit of the assembler: the dict appended at lines 70-74 of the
source, one per surviving curve. -/
structure ScanRecord where
  scan_number : Nat
  potential : List Json
  current : List Json

/-- Dictionary lookup with Python semantics: the latest binding of a key
wins (json.loads overwrites duplicate keys), i.e. the first match in the
reversed member list. -/
def objGet (fields : List (String × Json)) (k : String) : Option Json :=
  (fields.reverse.find? (fun kv => kv.1 == k)).map (fun kv => kv.2)

/-- The keys of a Python dict in first-occurrence order, without duplicates. -/
def pyKeys (fields : List (String × Json)) : List String :=
  fields.foldl (fun acc kv => if acc.contains kv.1 then acc else acc ++ [kv.1]) []

/-- Substring test, modelling Python's `needle in haystack` on strings. -/
def strContainsSub (needle : List Char) : List Char → Bool
  | [] => needle.isPrefixOf []
  | c :: t => needle.isPrefixOf (c :: t) || strContainsSub needle t

/-- Python's `k in v` for a string key `k`: key membership on dicts,
element membership on lists, substring test on strings, TypeError
otherwise. -/
def pyContains (v : Json) (k : String) : Except PyErr Bool :=
  match v with
  | .obj fs => .ok (fs.any (fun kv => kv.1 == k))
  | .arr xs => .ok (xs.any (fun j => match j with | .str s => s == k | _ => false))
  | .str s => .ok (strContainsSub k.data s.data)
  | _ => .error .typeError

/-- Python's `v[k]` for a string key: dict lookup (KeyError when absent),
TypeError on every other value. -/
def pyGetItem (v : Json) (k : String) : Except PyErr Json :=
  match v with
  | .obj fs =>
    match objGet fs k with
    | some x => .ok x
    | none => .error .keyError
  | _ => .error .typeError

/-- Python's `len(v)`: length of lists and strings, number of keys of a
dict, TypeError otherwise. -/
def pyLen (v : Json) : Except PyErr Nat :=
  match v with
  | .arr xs => .ok xs.length
  | .str s => .ok s.length
  | .obj fs => .ok (pyKeys fs).length
  | _ => .error .typeError

/-- Python iteration over `v`: list elements, one-character strings of a
string, keys of a dict, TypeError otherwise. -/
def pyIter (v : Json) : Except PyErr (List Json) :=
  match v with
  | .arr xs => .ok xs
  | .str s => .ok (s.data.map (fun c => .str (String.singleton c)))
  | .obj fs => .ok ((pyKeys fs).map Json.str)
  | _ => .error .typeError

/-- Effectful map over a list, aborting at the first error — the shape of
every `for` loop in the source, whose exceptions escape to the handler at
line 83. -/
def exceptMapM (f : α → Except PyErr β) : List α → Except PyErr (List β)
  | [] => .ok []
  | a :: as =>
    match f a with
    | .error e => .error e
    | .ok b =>
      match exceptMapM f as with
      | .error e => .error e
      | .ok bs => .ok (b :: bs)

/-! ## Payload extractor (source lines 19-40) -/

/-- Contribution of one character to the running brace counter
(line 29: increment on an opening brace, line 31: decrement on a closing
brace, all other characters leave the counter unchanged). -/
def braceDelta (c : Char) : Int :=
  if c = lbrace then 1 else if c = rbrace then -1 else 0

/-- Net brace depth of a character list under the naive counter. -/
def depthInt : List Char → Int
  | [] => 0
  | c :: cs => braceDelta c + depthInt cs

/-- Extraction failures of the source: no opening brace at all
(lines 20-22) or a counter that never returns to zero (lines 35-37). -/
inductive ExtractErr where
  | noJsonFound : ExtractErr
  | incompleteJson : ExtractErr
deriving DecidableEq

/-- The while loop of lines 28-33: with the counter currently at `n`,
consume characters — adjusting the counter on every brace, string
literals included — and return the consumed span, which ends exactly when
the counter reaches zero; `none` when the input ends first. -/
def scanToClose : Nat → List Char → Option (List Char)
  | 0, _ => some []
  | Nat.succ _, [] => none
  | Nat.succ n, c :: cs =>
    let count := if c = lbrace then n + 2 else if c = rbrace then n else n + 1
    (scanToClose count cs).map (fun t => c :: t)

/-- Lines 19-40 of the source: find the first opening brace (line 19),
then run the naive counter from 1 (lines 25-33); the candidate payload is
the slice from the first opening brace up to and including the character
at which the counter returns to zero (line 40). -/
def extractPayload : List Char → Except ExtractErr (List Char)
  | [] => .error .noJsonFound
  | c :: cs =>
    if c = lbrace then
      match scanToClose 1 cs with
      | some t => .ok (lbrace :: t)
      | none => .error .incompleteJson
    else extractPayload cs

/-- The byte-order mark, code point U+FEFF. -/
def bomChar : Char := Char.ofNat 65279

/-- Byte-order-mark stripping of lines 15-16. -/
def stripBOM (content : List Char) : List Char :=
  match content with
  | c :: rest => if c = bomChar then rest else c :: rest
  | [] => []

/-! ## Scan assembler (source lines 43-81) -/

/-- Lines 57-59 resp. 62-64: one axis series of a curve.  If the axis key
is present and its value contains a DataValues entry, the series is the
list comprehension over the V key of every data point; otherwise the
series initialised at lines 53-54 stays empty.  Evaluation order follows
the Python condition `axisKey in curve and 'DataValues' in curve[axisKey]`. -/
def getSeries (curve : Json) (axisKey : String) : Except PyErr (List Json) :=
  match pyContains curve axisKey with
  | .error e => .error e
  | .ok false => .ok []
  | .ok true =>
    match pyGetItem curve axisKey with
    | .error e => .error e
    | .ok axis =>
      match pyContains axis "DataValues" with
      | .error e => .error e
      | .ok false => .ok []
      | .ok true =>
        match pyGetItem axis "DataValues" with
        | .error e => .error e
        | .ok dv =>
          match pyIter dv with
          | .error e => .error e
          | .ok pts => exceptMapM (fun p => pyGetItem p "V") pts

/-- Lines 53-74: the body of the curve loop at 0-based curve index `idx`.
Emits a record exactly when both series are non-empty and of equal length
(lines 66-74); a length mismatch only prints a warning and drops the
curve (lines 67-68). -/
def processCurve (idx : Nat) (curve : Json) : Except PyErr (Option ScanRecord) :=
  match getSeries curve "XAxisDataArray" with
  | .error e => .error e
  | .ok potential =>
    match getSeries curve "YAxisDataArray" with
    | .error e => .error e
    | .ok current =>
      if 0 < potential.length ∧ 0 < current.length then
        if potential.length = current.length then
          .ok (some { scan_number := idx + 1, potential := potential, current := current })
        else .ok none
      else .ok none

/-- Line 51: `for curve_idx, curve in enumerate(measurement['Curves'])`,
starting at index `idx`; surviving records are appended in iteration
order, and an exception aborts the whole traversal. -/
def processCurvesFrom (idx : Nat) : List Json → Except PyErr (List ScanRecord)
  | [] => .ok []
  | c :: cs =>
    match processCurve idx c with
    | .error e => .error e
    | .ok none => processCurvesFrom (idx + 1) cs
    | .ok (some r) =>
      match processCurvesFrom (idx + 1) cs with
      | .error e => .error e
      | .ok recs => .ok (r :: recs)

/-- Lines 49-76: one measurement.  Without a Curves key it contributes
nothing (lines 75-76); otherwise its curve list is enumerated from 0. -/
def processMeasurement (m : Json) : Except PyErr (List ScanRecord) :=
  match pyContains m "Curves" with
  | .error e => .error e
  | .ok false => .ok []
  | .ok true =>
    match pyGetItem m "Curves" with
    | .error e => .error e
    | .ok curvesVal =>
      match pyIter curvesVal with
      | .error e => .error e
      | .ok curves => processCurvesFrom 0 curves

/-- Lines 43-81: the assembler over the parsed document.  The guard at
line 43 is `'Measurements' in data and len(data['Measurements']) > 0`;
when it fails the accumulated list (still empty) is returned.  All scans
of all measurements are concatenated into one list. -/
def assemble (data : Json) : Except PyErr (List ScanRecord) :=
  match pyContains data "Measurements" with
  | .error e => .error e
  | .ok false => .ok []
  | .ok true =>
    match pyGetItem data "Measurements" with
    | .error e => .error e
    | .ok mv =>
      match pyLen mv with
      | .error e => .error e
      | .ok n =>
        if 0 < n then
          match pyIter mv with
          | .error e => .error e
          | .ok ms =>
            match exceptMapM processMeasurement ms with
            | .error e => .error e
            | .ok recss => .ok recss.flatten
        else .ok []

/-! ## JSON parsing (modelled: the source calls the Python standard
library's json.loads at line 41, which is not part of src/) -/

/-- Whitespace accepted between JSON tokens. -/
def isJsonWs (c : Char) : Bool :=
  c = ' ' || c = '\n' || c = '\t' || c = '\r'

/-- Drop leading JSON whitespace. -/
def skipWs (s : List Char) : List Char := s.dropWhile isJsonWs

/-- Modelled from the spec: the body of a JSON string literal, after the
opening quote; stops at the closing quote, handles the single-character
escapes, rejects unterminated or badly escaped strings.  Unicode escapes
are not modelled, which only restricts the accepted language. -/
def parseStringLit : List Char → Option (String × List Char)
  | [] => none
  | c :: cs =>
    if c = '"' then some ("", cs)
    else if c = '\\' then
      match cs with
      | [] => none
      | e :: cs' =>
        let dec : Option Char :=
          if e = '"' || e = '\\' || e = '/' then some e
          else if e = 'n' then some '\n'
          else if e = 't' then some '\t'
          else if e = 'r' then some '\r'
          else if e = 'b' then some (Char.ofNat 8)
          else if e = 'f' then some (Char.ofNat 12)
          else none
        match dec with
        | none => none
        | some d => (parseStringLit cs').map (fun sr => (String.singleton d ++ sr.1, sr.2))
    else (parseStringLit cs).map (fun sr => (String.singleton c ++ sr.1, sr.2))

/-- A maximal run of decimal digits, as a number. -/
def parseNatLit (s : List Char) : Option (Nat × List Char) :=
  let ds := s.takeWhile Char.isDigit
  if ds.isEmpty then none
  else some (ds.foldl (fun a c => a * 10 + (c.toNat - 48)) 0, s.drop ds.length)

mutual

/-- Modelled from the spec: json.loads (Python standard library, not part
of src/), restricted to integer numerals and strings without unicode
escapes; `fuel` bounds the nesting depth and is instantiated above the
input length, so it never runs out on an accepted document. -/
def parseValue : Nat → List Char → Option (Json × List Char)
  | 0, _ => none
  | Nat.succ fuel, s =>
    match skipWs s with
    | [] => none
    | c :: cs =>
      if c = '"' then (parseStringLit cs).map (fun sr => (Json.str sr.1, sr.2))
      else if c = lbrace then
        match skipWs cs with
        | [] => none
        | d :: ds =>
          if d = rbrace then some (Json.obj [], ds)
          else (parseMembers fuel (d :: ds)).map (fun mr => (Json.obj mr.1, mr.2))
      else if c = '[' then
        match skipWs cs with
        | [] => none
        | d :: ds =>
          if d = ']' then some (Json.arr [], ds)
          else (parseElements fuel (d :: ds)).map (fun er => (Json.arr er.1, er.2))
      else if c = 't' then
        match cs with
        | 'r' :: 'u' :: 'e' :: r => some (Json.bool true, r)
        | _ => none
      else if c = 'f' then
        match cs with
        | 'a' :: 'l' :: 's' :: 'e' :: r => some (Json.bool false, r)
        | _ => none
      else if c = 'n' then
        match cs with
        | 'u' :: 'l' :: 'l' :: r => some (Json.null, r)
        | _ => none
      else if c = '-' then (parseNatLit cs).map (fun nr => (Json.num (-(nr.1 : Int)), nr.2))
      else if c.isDigit then (parseNatLit (c :: cs)).map (fun nr => (Json.num (nr.1 : Int), nr.2))
      else none

/-- Comma-separated array elements up to the closing bracket. -/
def parseElements : Nat → List Char → Option (List Json × List Char)
  | 0, _ => none
  | Nat.succ fuel, s =>
    match parseValue fuel s with
    | none => none
    | some (v, r) =>
      match skipWs r with
      | [] => none
      | c :: cs =>
        if c = ',' then
          match parseElements fuel cs with
          | none => none
          | some (vs, r2) => some (v :: vs, r2)
        else if c = ']' then some ([v], cs)
        else none

/-- Comma-separated object members up to the closing brace. -/
def parseMembers : Nat → List Char → Option (List (String × Json) × List Char)
  | 0, _ => none
  | Nat.succ fuel, s =>
    match skipWs s with
    | [] => none
    | c :: cs =>
      if c = '"' then
        match parseStringLit cs with
        | none => none
        | some (k, r) =>
          match skipWs r with
          | [] => none
          | d :: ds =>
            if d = ':' then
              match parseValue fuel ds with
              | none => none
              | some (v, r2) =>
                match skipWs r2 with
                | [] => none
                | e :: es =>
                  if e = ',' then
                    match parseMembers fuel es with
                    | none => none
                    | some (kvs, r3) => some ((k, v) :: kvs, r3)
                  else if e = rbrace then some ([(k, v)], es)
                  else none
            else none
      else none

end

/-- Modelled from the spec: json.loads on the whole candidate span — one
value, possibly surrounded by whitespace, nothing after it. -/
def jsonParse (s : List Char) : Option Json :=
  match parseValue (s.length + 1) s with
  | some (v, r) => if (skipWs r).isEmpty then some v else none
  | none => none

/-! ## Whole-file pipeline (source lines 5-85 and 113-156) -/

/-- Lines 5-85, after the file's text has been decoded: strip the BOM,
extract the payload, json.loads it, assemble the scans.  Every failure —
the two explicit early returns and any exception caught at line 83 —
yields the empty list. -/
def parse_pessession_file (content : List Char) : List ScanRecord :=
  match extractPayload (stripBOM content) with
  | .error _ => []
  | .ok span =>
    match jsonParse span with
    | none => []
    | some data =>
      match assemble data with
      | .error _ => []
      | .ok recs => recs

/-! ## Tabular rendering (source lines 130-154) -/

/-- Line 144: `max(len(scan['potential']) for scan in all_scans)` —
Python's max raises ValueError on an empty iterable, otherwise folds
binary max over the values. -/
def maxPoints (all_scans : List ScanRecord) : Except PyErr Nat :=
  match all_scans.map (fun scan => scan.potential.length) with
  | [] => .error .valueError
  | x :: xs => .ok (xs.foldl max x)

/-- Lines 150-153: the cell group one record contributes to data row `i`
— its two values and two trailing tabs when `i` is in range of its
potential series, three tabs otherwise.  Only the potential length is
range-checked, so `current[i]` can raise IndexError.  `fmt` stands for
Python's str() formatting of a value. -/
def cellOf (fmt : Json → String) (i : Nat) (scan : ScanRecord) : Except PyErr String :=
  if i < scan.potential.length then
    match scan.potential.get? i, scan.current.get? i with
    | some p, some c => .ok (fmt p ++ "\t" ++ fmt c ++ "\t\t")
    | _, _ => .error .indexError
  else .ok "\t\t\t"

/-- Lines 143-154: the data rows, one per index below the maximum
potential length, each the concatenation of every record's cell group. -/
def renderDataRows (fmt : Json → String) (all_scans : List ScanRecord) :
    Except PyErr (List String) :=
  match maxPoints all_scans with
  | .error e => .error e
  | .ok mp =>
    exceptMapM
      (fun i =>
        match exceptMapM (cellOf fmt i) all_scans with
        | .error e => .error e
        | .ok cells => .ok (String.join cells))
      (List.range mp)

/-- Lines 130-154: the full rendered file as its list of lines — the
scan-header row (lines 132-135), the column-header row (lines 138-141),
then the data rows. -/
def renderFile (fmt : Json → String) (all_scans : List ScanRecord) :
    Except PyErr (List String) :=
  let header1 :=
    String.join ((List.range all_scans.length).map
      (fun n => "Scan " ++ toString (n + 1) ++ "\t\t\t\t"))
  let header2 :=
    String.join (all_scans.map (fun _ => "Potential(V)\tCurrent(A)\t\t"))
  match renderDataRows fmt all_scans with
  | .error e => .error e
  | .ok rows => .ok (header1 :: header2 :: rows)

/-- Lines 117-156: the per-file body of convert_pessession_to_text, with
the filesystem glue abstracted away — parse the file's text, skip the
file entirely when no scans were extracted (lines 121-123), otherwise
render it. -/
def convert_file (fmt : Json → String) (content : List Char) :
    Option (Except PyErr (List String)) :=
  let all_scans := parse_pessession_file content
  if all_scans.isEmpty then none
  else some (renderFile fmt all_scans)

/-! ## Basic lemmas about the effectful combinators -/

theorem exceptMapM_ok_of_forall {f : α → Except PyErr β} {l : List α}
    (h : ∀ a ∈ l, ∃ b, f a = .ok b) : ∃ bs, exceptMapM f l = .ok bs := by
  induction l with
  | nil => exact ⟨[], rfl⟩
  | cons a as ih =>
    obtain ⟨b, hb⟩ := h a (List.mem_cons_self a as)
    obtain ⟨bs, hbs⟩ := ih (fun x hx => h x (List.mem_cons_of_mem a hx))
    exact ⟨b :: bs, by simp [exceptMapM, hb, hbs]⟩

theorem exceptMapM_congr_ok {f : α → Except PyErr β} {g : α → β} {l : List α}
    (h : ∀ a ∈ l, f a = .ok (g a)) : exceptMapM f l = .ok (l.map g) := by
  induction l with
  | nil => rfl
  | cons a as ih =>
    have ha := h a (List.mem_cons_self a as)
    have hrest := ih (fun x hx => h x (List.mem_cons_of_mem a hx))
    simp [exceptMapM, ha, hrest]

theorem exceptMapM_ok_mem {f : α → Except PyErr β} {l : List α} {bs : List β}
    (h : exceptMapM f l = .ok bs) : ∀ b ∈ bs, ∃ a ∈ l, f a = .ok b := by
  induction l generalizing bs with
  | nil =>
    simp only [exceptMapM] at h
    cases h
    intro b hb
    exact absurd hb (List.not_mem_nil b)
  | cons a as ih =>
    simp only [exceptMapM] at h
    cases hfa : f a with
    | error e => rw [hfa] at h; cases h
    | ok b0 =>
      rw [hfa] at h
      cases hrest : exceptMapM f as with
      | error e => rw [hrest] at h; cases h
      | ok bs0 =>
        rw [hrest] at h
        cases h
        intro b hb
        rcases List.mem_cons.mp hb with hb | hb
        · exact ⟨a, List.mem_cons_self a as, hb ▸ hfa⟩
        · obtain ⟨x, hx, hfx⟩ := ih hrest b hb
          exact ⟨x, List.mem_cons_of_mem a hx, hfx⟩

theorem exceptMapM_error_of_between {f : α → Except PyErr β}
    (l₁ : List α) (a : α) (l₂ : List α) {e : PyErr} (h : f a = .error e) :
    ∃ e2, exceptMapM f (l₁ ++ a :: l₂) = .error e2 := by
  induction l₁ with
  | nil => exact ⟨e, by simp [exceptMapM, h]⟩
  | cons b t ih =>
    obtain ⟨e2, he2⟩ := ih
    cases hfb : f b with
    | error eb => exact ⟨eb, by simp [exceptMapM, hfb]⟩
    | ok vb => exact ⟨e2, by simp [exceptMapM, hfb, he2]⟩

/-! ## Facts about a single curve (claim C1 and supporting invariants) -/

theorem processCurve_eq (idx : Nat) (curve : Json) (potential current : List Json)
    (hx : getSeries curve "XAxisDataArray" = .ok potential)
    (hy : getSeries curve "YAxisDataArray" = .ok current) :
    processCurve idx curve =
      .ok (if 0 < potential.length ∧ potential.length = current.length then
             some ⟨idx + 1, potential, current⟩
           else none) := by
  unfold processCurve
  rw [hx, hy]
  dsimp only
  by_cases h1 : 0 < potential.length ∧ 0 < current.length
  · rw [if_pos h1]
    by_cases h2 : potential.length = current.length
    · rw [if_pos h2, if_pos ⟨h1.1, h2⟩]
    · rw [if_neg h2, if_neg (fun hc => h2 hc.2)]
  · rw [if_neg h1, if_neg]
    intro hc
    exact h1 ⟨hc.1, hc.2 ▸ hc.1⟩

theorem processCurve_some_inv {idx : Nat} {curve : Json} {r : ScanRecord}
    (h : processCurve idx curve = .ok (some r)) :
    r.scan_number = idx + 1 ∧ r.potential.length = r.current.length ∧
      0 < r.potential.length ∧
      getSeries curve "XAxisDataArray" = .ok r.potential ∧
      getSeries curve "YAxisDataArray" = .ok r.current := by
  unfold processCurve at h
  cases hx : getSeries curve "XAxisDataArray" with
  | error e => rw [hx] at h; cases h
  | ok potential =>
    rw [hx] at h
    cases hy : getSeries curve "YAxisDataArray" with
    | error e => rw [hy] at h; cases h
    | ok current =>
      rw [hy] at h
      dsimp only at h
      by_cases h1 : 0 < potential.length ∧ 0 < current.length
      · rw [if_pos h1] at h
        by_cases h2 : potential.length = current.length
        · rw [if_pos h2] at h
          cases h
          exact ⟨rfl, h2, h1.1, rfl, rfl⟩
        · rw [if_neg h2] at h; cases h
      · rw [if_neg h1] at h; cases h

/-- Sample curve used to instantiate hypotheses of the curve-level claims. -/
def sampleCurveXY : Json :=
  Json.obj
    [("XAxisDataArray",
      Json.obj [("DataValues", Json.arr [Json.obj [("V", Json.num 1)], Json.obj [("V", Json.num 2)]])]),
     ("YAxisDataArray",
      Json.obj [("DataValues", Json.arr [Json.obj [("V", Json.num 3)], Json.obj [("V", Json.num 4)]])])]

/-- C1: for every curve in the parsed document, the assembler emits exactly
one ScanRecord — whose potential and current fields are exactly the ordered
V-value sequences extracted from XAxisDataArray.DataValues and
YAxisDataArray.DataValues — precisely when both extracted series are
non-empty and of equal length; if either series is empty, or both are
non-empty with differing lengths, the curve contributes no record, never a
truncated or repaired one. -/
theorem curve_emits_record_iff (idx : Nat) (curve : Json) (potential current : List Json)
    (hx : getSeries curve "XAxisDataArray" = .ok potential)
    (hy : getSeries curve "YAxisDataArray" = .ok current) :
    processCurve idx curve =
      .ok (if 0 < potential.length ∧ potential.length = current.length then
             some ⟨idx + 1, potential, current⟩
           else none) :=
  processCurve_eq idx curve potential current hx hy

theorem curve_emits_record_iff_witness :
    processCurve 0 sampleCurveXY =
      .ok (some ⟨1, [Json.num 1, Json.num 2], [Json.num 3, Json.num 4]⟩) := by
  have h := curve_emits_record_iff 0 sampleCurveXY
    [Json.num 1, Json.num 2] [Json.num 3, Json.num 4] rfl rfl
  simpa using h

/-! ## The curve loop: positional numbering, order, invariants -/

theorem processCurvesFrom_spec (cs : List Json) :
    ∀ (idx : Nat) (recs : List ScanRecord),
      processCurvesFrom idx cs = .ok recs →
      (∀ r ∈ recs, ∃ i, ∃ h : i < cs.length,
          r.scan_number = idx + i + 1 ∧ processCurve (idx + i) (cs.get ⟨i, h⟩) = .ok (some r))
      ∧ (∀ r ∈ recs, idx < r.scan_number)
      ∧ List.Chain' (fun a b => a.scan_number < b.scan_number) recs
      ∧ (∀ r ∈ recs, r.potential.length = r.current.length ∧ 0 < r.potential.length) := by
  induction cs with
  | nil =>
    intro idx recs h
    simp only [processCurvesFrom] at h
    cases h
    exact ⟨fun r hr => absurd hr (List.not_mem_nil r),
           fun r hr => absurd hr (List.not_mem_nil r),
           List.chain'_nil,
           fun r hr => absurd hr (List.not_mem_nil r)⟩
  | cons c cs ih =>
    intro idx recs h
    unfold processCurvesFrom at h
    cases hpc : processCurve idx c with
    | error e => rw [hpc] at h; cases h
    | ok o =>
      rw [hpc] at h
      cases o with
      | none =>
        obtain ⟨h1, h2, h3, h4⟩ := ih (idx + 1) recs h
        refine ⟨?_, ?_, h3, h4⟩
        · intro r hr
          obtain ⟨i, hi, hsn, hpc2⟩ := h1 r hr
          refine ⟨i + 1, Nat.succ_lt_succ hi, ?_, ?_⟩
          · omega
          · have harith : idx + 1 + i = idx + (i + 1) := by omega
            rw [harith] at hpc2
            simpa using hpc2
        · intro r hr
          exact Nat.lt_of_succ_lt (h2 r hr)
      | some r0 =>
        cases hrest : processCurvesFrom (idx + 1) cs with
        | error e => rw [hrest] at h; cases h
        | ok recs' =>
          rw [hrest] at h
          cases h
          obtain ⟨hsn0, hlen0, hpos0, _, _⟩ := processCurve_some_inv hpc
          obtain ⟨h1, h2, h3, h4⟩ := ih (idx + 1) recs' hrest
          refine ⟨?_, ?_, ?_, ?_⟩
          · intro r hr
            rcases List.mem_cons.mp hr with hr | hr
            · subst hr
              exact ⟨0, Nat.succ_pos _, by omega, by simpa using hpc⟩
            · obtain ⟨i, hi, hsn, hpc2⟩ := h1 r hr
              refine ⟨i + 1, Nat.succ_lt_succ hi, by omega, ?_⟩
              have harith : idx + 1 + i = idx + (i + 1) := by omega
              rw [harith] at hpc2
              simpa using hpc2
          · intro r hr
            rcases List.mem_cons.mp hr with hr | hr
            · subst hr; omega
            · exact Nat.lt_of_succ_lt (h2 r hr)
          · rw [List.chain'_cons']
            refine ⟨?_, h3⟩
            intro b hb
            have hbmem : b ∈ recs' := List.mem_of_mem_head? hb
            have := h2 b hbmem
            omega
          · intro r hr
            rcases List.mem_cons.mp hr with hr | hr
            · subst hr; exact ⟨hlen0, hpos0⟩
            · exact h4 r hr

/-! ## Bridging Python key membership and lookup -/

theorem any_key_iff_objGet {fs : List (String × Json)} {k : String} :
    fs.any (fun kv => kv.1 == k) = true ↔ ∃ v, objGet fs k = some v := by
  constructor
  · intro h
    obtain ⟨kv, hkv, hp⟩ := List.any_eq_true.mp h
    have hmem : kv ∈ fs.reverse := List.mem_reverse.mpr hkv
    have : (fs.reverse.find? (fun kv => kv.1 == k)).isSome :=
      List.find?_isSome.mpr ⟨kv, hmem, hp⟩
    obtain ⟨w, hw⟩ := Option.isSome_iff_exists.mp this
    exact ⟨w.2, by simp [objGet, hw]⟩
  · rintro ⟨v, hv⟩
    simp only [objGet, Option.map_eq_some'] at hv
    obtain ⟨kv, hkv, _⟩ := hv
    have hp := List.find?_some hkv
    have hmem := List.mem_reverse.mp (List.mem_of_find?_eq_some hkv)
    exact List.any_eq_true.mpr ⟨kv, hmem, hp⟩

theorem objGet_none_any {fs : List (String × Json)} {k : String}
    (h : objGet fs k = none) : fs.any (fun kv => kv.1 == k) = false := by
  by_contra hc
  have : fs.any (fun kv => kv.1 == k) = true := by
    cases hb : fs.any (fun kv => kv.1 == k) with
    | false => exact absurd hb hc
    | true => rfl
  obtain ⟨v, hv⟩ := any_key_iff_objGet.mp this
  rw [h] at hv
  cases hv

/-- Unfolding of the assembler on a document whose Measurements key
resolves to a list. -/
theorem assemble_obj_measurements {fields : List (String × Json)} {ms : List Json}
    (h : objGet fields "Measurements" = some (.arr ms)) :
    assemble (.obj fields) =
      (if 0 < ms.length then
        match exceptMapM processMeasurement ms with
        | .error e => .error e
        | .ok recss => .ok recss.flatten
      else .ok []) := by
  have hany : fields.any (fun kv => kv.1 == "Measurements") = true :=
    any_key_iff_objGet.mpr ⟨_, h⟩
  unfold assemble
  simp only [pyContains, hany, pyGetItem, h, pyLen, pyIter]

theorem processMeasurement_ok_spec {m : Json} {recs : List ScanRecord}
    (h : processMeasurement m = .ok recs) :
    List.Chain' (fun a b => a.scan_number < b.scan_number) recs
    ∧ ∀ r ∈ recs, r.potential.length = r.current.length ∧ 0 < r.potential.length := by
  unfold processMeasurement at h
  cases hc : pyContains m "Curves" with
  | error e => rw [hc] at h; cases h
  | ok b =>
    rw [hc] at h
    cases b with
    | false =>
      cases h
      exact ⟨List.chain'_nil, fun r hr => absurd hr (List.not_mem_nil r)⟩
    | true =>
      dsimp only at h
      cases hg : pyGetItem m "Curves" with
      | error e => rw [hg] at h; cases h
      | ok curvesVal =>
        rw [hg] at h
        dsimp only at h
        cases hi : pyIter curvesVal with
        | error e => rw [hi] at h; cases h
        | ok curves =>
          rw [hi] at h
          dsimp only at h
          obtain ⟨_, _, h3, h4⟩ := processCurvesFrom_spec curves 0 recs h
          exact ⟨h3, h4⟩

/-- Sample curve whose two series have different lengths: it is dropped by
the assembler. -/
def sampleMismatchCurve : Json :=
  Json.obj
    [("XAxisDataArray",
      Json.obj [("DataValues", Json.arr [Json.obj [("V", Json.num 1)], Json.obj [("V", Json.num 2)]])]),
     ("YAxisDataArray",
      Json.obj [("DataValues", Json.arr [Json.obj [("V", Json.num 3)]])])]

/-- Sample curve list whose first curve is dropped for mismatch and whose
second curve survives. -/
def sampleMeasCurves : List Json := [sampleMismatchCurve, sampleCurveXY]

/-- The record the surviving second curve of sampleMeasCurves produces. -/
def sampleRecord2 : ScanRecord :=
  ⟨2, [Json.num 1, Json.num 2], [Json.num 3, Json.num 4]⟩

/-- C3: every emitted ScanRecord carries scan_number equal to its curve's
0-based index in the measurement's source curve list plus 1 — not its
position among surviving curves — and within a document the records are
assembled measurement by measurement, each measurement's curve list
enumerated from index 0, so numbering restarts at 1 per measurement rather
than accumulating globally. -/
theorem scan_number_source_position :
    (∀ (cs : List Json) (recs : List ScanRecord),
        processCurvesFrom 0 cs = .ok recs →
        ∀ r ∈ recs, ∃ i, ∃ h : i < cs.length,
          r.scan_number = i + 1 ∧ processCurve i (cs.get ⟨i, h⟩) = .ok (some r))
    ∧ (∀ (fields : List (String × Json)) (ms : List Json) (recss : List (List ScanRecord)),
        objGet fields "Measurements" = some (.arr ms) → ms ≠ [] →
        exceptMapM processMeasurement ms = .ok recss →
        assemble (.obj fields) = .ok recss.flatten) := by
  constructor
  · intro cs recs h r hr
    obtain ⟨h1, _, _, _⟩ := processCurvesFrom_spec cs 0 recs h
    obtain ⟨i, hi, hsn, hpc⟩ := h1 r hr
    have hz : 0 + i = i := Nat.zero_add i
    rw [hz] at hsn hpc
    exact ⟨i, hi, hsn, hpc⟩
  · intro fields ms recss h1 hne h2
    rw [assemble_obj_measurements h1]
    have hpos : 0 < ms.length := List.length_pos.mpr hne
    rw [if_pos hpos, h2]

theorem scan_number_source_position_witness :
    ∃ i, ∃ h : i < sampleMeasCurves.length,
      sampleRecord2.scan_number = i + 1 ∧
      processCurve i (sampleMeasCurves.get ⟨i, h⟩) = .ok (some sampleRecord2) :=
  scan_number_source_position.1 sampleMeasCurves [sampleRecord2] rfl
    sampleRecord2 (List.mem_cons_self sampleRecord2 [])

/-- Sample measurement wrapping sampleMeasCurves. -/
def sampleMeasurement : Json := Json.obj [("Curves", Json.arr sampleMeasCurves)]

/-- Sample top-level member list with two identical measurements. -/
def sampleFields : List (String × Json) :=
  [("Measurements", Json.arr [sampleMeasurement, sampleMeasurement])]

/-- C9: the output list preserves document order — it is the concatenation,
in measurement order, of each measurement's own record list, and inside
each measurement's list the scan_number values are strictly increasing
(records appear in ascending source curve index). -/
theorem output_document_order (fields : List (String × Json)) (ms : List Json)
    (recs : List ScanRecord)
    (h1 : objGet fields "Measurements" = some (.arr ms))
    (h2 : assemble (.obj fields) = .ok recs) :
    ∃ recss, exceptMapM processMeasurement ms = .ok recss ∧ recs = recss.flatten ∧
      ∀ l ∈ recss, List.Chain' (fun a b => a.scan_number < b.scan_number) l := by
  rw [assemble_obj_measurements h1] at h2
  by_cases hms : 0 < ms.length
  · rw [if_pos hms] at h2
    cases hmm : exceptMapM processMeasurement ms with
    | error e => rw [hmm] at h2; cases h2
    | ok recss =>
      rw [hmm] at h2
      cases h2
      refine ⟨recss, rfl, rfl, ?_⟩
      intro l hl
      obtain ⟨m, _, hpm⟩ := exceptMapM_ok_mem hmm l hl
      exact (processMeasurement_ok_spec hpm).1
  · rw [if_neg hms] at h2
    cases h2
    have : ms = [] := List.length_eq_zero.mp (by omega)
    subst this
    exact ⟨[], rfl, rfl, fun l hl => absurd hl (List.not_mem_nil l)⟩

theorem output_document_order_witness :
    ∃ recss,
      exceptMapM processMeasurement [sampleMeasurement, sampleMeasurement] = .ok recss ∧
      [sampleRecord2, sampleRecord2] = recss.flatten ∧
      ∀ l ∈ recss, List.Chain' (fun a b => a.scan_number < b.scan_number) l :=
  output_document_order sampleFields [sampleMeasurement, sampleMeasurement]
    [sampleRecord2, sampleRecord2] rfl rfl

/-! ## Graceful degradation (claim C2): structurally sound documents with
keys absent at any level never make the assembler raise -/

/-- A data point the comprehension at lines 58/63 can read: an object with
a V key. -/
def wfPoint : Json → Bool
  | .obj fs => fs.any (fun kv => kv.1 == "V")
  | _ => false

/-- A DataValues value: a list of readable data points. -/
def wfDataValues : Json → Bool
  | .arr ps => ps.all wfPoint
  | _ => false

/-- An axis container: an object whose DataValues member, when present, is
a list of readable points; the key may be absent. -/
def wfAxis : Json → Bool
  | .obj fs =>
    match objGet fs "DataValues" with
    | some dv => wfDataValues dv
    | none => true
  | _ => false

/-- A curve: an object whose axis members, when present, are axis
containers; either axis key may be absent. -/
def wfCurve : Json → Bool
  | .obj fs =>
    (match objGet fs "XAxisDataArray" with
     | some a => wfAxis a
     | none => true) &&
    (match objGet fs "YAxisDataArray" with
     | some a => wfAxis a
     | none => true)
  | _ => false

/-- A measurement: an object whose Curves member, when present, is a list
of curves; the key may be absent. -/
def wfMeasurement : Json → Bool
  | .obj fs =>
    match objGet fs "Curves" with
    | some (.arr cs) => cs.all wfCurve
    | some _ => false
    | none => true
  | _ => false

/-- A document: an object whose Measurements member, when present, is a
list of measurements; the key may be absent. -/
def wellStructured : Json → Bool
  | .obj fs =>
    match objGet fs "Measurements" with
    | some (.arr ms) => ms.all wfMeasurement
    | some _ => false
    | none => true
  | _ => false

theorem pyContains_obj (fs : List (String × Json)) (k : String) :
    pyContains (.obj fs) k = .ok (fs.any (fun kv => kv.1 == k)) := rfl

theorem pyGetItem_obj_some {fs : List (String × Json)} {k : String} {v : Json}
    (h : objGet fs k = some v) : pyGetItem (.obj fs) k = .ok v := by
  simp [pyGetItem, h]

theorem getSeries_ok_of_wf {fs : List (String × Json)} {axisKey : String}
    (h : (match objGet fs axisKey with
          | some a => wfAxis a
          | none => true) = true) :
    ∃ l, getSeries (.obj fs) axisKey = .ok l := by
  unfold getSeries
  rw [pyContains_obj]
  cases hag : objGet fs axisKey with
  | none =>
    rw [objGet_none_any hag]
    exact ⟨[], rfl⟩
  | some axis =>
    have hany : fs.any (fun kv => kv.1 == axisKey) = true :=
      any_key_iff_objGet.mpr ⟨axis, hag⟩
    rw [hany]
    dsimp only
    rw [pyGetItem_obj_some hag]
    dsimp only
    have haxis : wfAxis axis = true := by rw [hag] at h; exact h
    cases axis with
    | obj afs =>
      simp only [wfAxis] at haxis
      rw [pyContains_obj]
      cases hdg : objGet afs "DataValues" with
      | none =>
        rw [objGet_none_any hdg]
        exact ⟨[], rfl⟩
      | some dv =>
        have hany2 : afs.any (fun kv => kv.1 == "DataValues") = true :=
          any_key_iff_objGet.mpr ⟨dv, hdg⟩
        rw [hany2]
        dsimp only
        rw [pyGetItem_obj_some hdg]
        dsimp only
        have hdv : wfDataValues dv = true := by rw [hdg] at haxis; exact haxis
        cases dv with
        | arr ps =>
          dsimp only [pyIter]
          apply exceptMapM_ok_of_forall
          intro p hp
          have hwp : wfPoint p = true := by
            simp only [wfDataValues] at hdv
            exact List.all_eq_true.mp hdv p hp
          cases p with
          | obj pfs =>
            simp only [wfPoint] at hwp
            obtain ⟨v, hv⟩ := any_key_iff_objGet.mp hwp
            exact ⟨v, pyGetItem_obj_some hv⟩
          | null => simp [wfPoint] at hwp
          | bool b => simp [wfPoint] at hwp
          | num n => simp [wfPoint] at hwp
          | str s => simp [wfPoint] at hwp
          | arr xs => simp [wfPoint] at hwp
        | null => simp [wfDataValues] at hdv
        | bool b => simp [wfDataValues] at hdv
        | num n => simp [wfDataValues] at hdv
        | str s => simp [wfDataValues] at hdv
        | obj ofs => simp [wfDataValues] at hdv
    | null => simp [wfAxis] at haxis
    | bool b => simp [wfAxis] at haxis
    | num n => simp [wfAxis] at haxis
    | str s => simp [wfAxis] at haxis
    | arr xs => simp [wfAxis] at haxis

theorem processCurve_ok_of_wf {c : Json} (idx : Nat) (h : wfCurve c = true) :
    ∃ o, processCurve idx c = .ok o := by
  cases c with
  | obj fs =>
    rw [wfCurve, Bool.and_eq_true] at h
    obtain ⟨lx, hx⟩ := getSeries_ok_of_wf h.1
    obtain ⟨ly, hy⟩ := getSeries_ok_of_wf h.2
    rw [processCurve_eq idx _ lx ly hx hy]
    exact ⟨_, rfl⟩
  | null => cases h
  | bool b => cases h
  | num n => cases h
  | str s => cases h
  | arr xs => cases h

theorem processCurvesFrom_ok_of_wf {cs : List Json}
    (h : ∀ c ∈ cs, wfCurve c = true) :
    ∀ idx, ∃ recs, processCurvesFrom idx cs = .ok recs := by
  induction cs with
  | nil => exact fun idx => ⟨[], rfl⟩
  | cons c cs ih =>
    intro idx
    obtain ⟨o, ho⟩ := processCurve_ok_of_wf idx (h c (List.mem_cons_self c cs))
    obtain ⟨recs, hrecs⟩ := ih (fun x hx => h x (List.mem_cons_of_mem c hx)) (idx + 1)
    cases o with
    | none => exact ⟨recs, by unfold processCurvesFrom; rw [ho, hrecs]⟩
    | some r => exact ⟨r :: recs, by unfold processCurvesFrom; rw [ho, hrecs]⟩

theorem processMeasurement_ok_of_wf {m : Json} (h : wfMeasurement m = true) :
    ∃ recs, processMeasurement m = .ok recs := by
  cases m with
  | obj fs =>
    unfold processMeasurement
    rw [pyContains_obj]
    simp only [wfMeasurement] at h
    cases hcg : objGet fs "Curves" with
    | none =>
      rw [objGet_none_any hcg]
      exact ⟨[], rfl⟩
    | some cv =>
      have hany : fs.any (fun kv => kv.1 == "Curves") = true :=
        any_key_iff_objGet.mpr ⟨cv, hcg⟩
      rw [hany]
      dsimp only
      rw [pyGetItem_obj_some hcg]
      dsimp only
      rw [hcg] at h
      cases cv with
      | arr cs =>
        dsimp only [pyIter]
        exact processCurvesFrom_ok_of_wf (fun c hc => List.all_eq_true.mp h c hc) 0
      | null => simp at h
      | bool b => simp at h
      | num n => simp at h
      | str s => simp at h
      | obj ofs => simp at h
  | null => simp [wfMeasurement] at h
  | bool b => simp [wfMeasurement] at h
  | num n => simp [wfMeasurement] at h
  | str s => simp [wfMeasurement] at h
  | arr xs => simp [wfMeasurement] at h

/-- C2: the assembler never fails on documents whose present structure is
sound — Measurements, Curves, axis arrays or DataValues may be absent at
any level and it still returns a (possibly shorter) scan list rather than
raising — and a document whose top-level object has no Measurements key
yields exactly the empty scan list with no exception. -/
theorem assembler_never_fails :
    (∀ doc : Json, wellStructured doc = true → ∃ recs, assemble doc = .ok recs)
    ∧ (∀ fields : List (String × Json), objGet fields "Measurements" = none →
        assemble (.obj fields) = .ok []) := by
  constructor
  · intro doc h
    cases doc with
    | obj fs =>
      unfold assemble
      rw [pyContains_obj]
      simp only [wellStructured] at h
      cases hmg : objGet fs "Measurements" with
      | none =>
        rw [objGet_none_any hmg]
        exact ⟨[], rfl⟩
      | some mv =>
        have hany : fs.any (fun kv => kv.1 == "Measurements") = true :=
          any_key_iff_objGet.mpr ⟨mv, hmg⟩
        rw [hany]
        dsimp only
        rw [pyGetItem_obj_some hmg]
        dsimp only
        rw [hmg] at h
        cases mv with
        | arr ms =>
          dsimp only [pyLen, pyIter]
          by_cases hpos : 0 < ms.length
          · rw [if_pos hpos]
            have hall : ∀ m ∈ ms, ∃ recs, processMeasurement m = .ok recs := by
              intro m hm
              exact processMeasurement_ok_of_wf (List.all_eq_true.mp h m hm)
            obtain ⟨recss, hrecss⟩ := exceptMapM_ok_of_forall hall
            rw [hrecss]
            exact ⟨recss.flatten, rfl⟩
          · rw [if_neg hpos]
            exact ⟨[], rfl⟩
        | null => simp at h
        | bool b => simp at h
        | num n => simp at h
        | str s => simp at h
        | obj ofs => simp at h
    | null => simp [wellStructured] at h
    | bool b => simp [wellStructured] at h
    | num n => simp [wellStructured] at h
    | str s => simp [wellStructured] at h
    | arr xs => simp [wellStructured] at h
  · intro fields h
    unfold assemble
    rw [pyContains_obj]
    rw [objGet_none_any h]

theorem assembler_never_fails_witness :
    (∃ recs, assemble (.obj sampleFields) = .ok recs)
    ∧ assemble (.obj [("Other", Json.num 1)]) = .ok [] :=
  ⟨assembler_never_fails.1 (.obj sampleFields) rfl,
   assembler_never_fails.2 [("Other", Json.num 1)] rfl⟩

/-! ## All-or-nothing parsing (claim C8) -/

/-- C8: if an exception is raised partway through assembling a file — here,
any measurement of the parsed document whose processing raises, regardless
of how many records earlier measurements already produced — the whole file
parses to the empty list: the per-file result is all-or-nothing, never a
partial list. -/
theorem exception_discards_all (content span : List Char)
    (fields : List (String × Json)) (ms₁ : List Json) (m₂ : Json) (ms₃ : List Json)
    (e : PyErr)
    (hex : extractPayload (stripBOM content) = .ok span)
    (hjson : jsonParse span = some (.obj fields))
    (hms : objGet fields "Measurements" = some (.arr (ms₁ ++ m₂ :: ms₃)))
    (herr : processMeasurement m₂ = .error e) :
    parse_pessession_file content = [] := by
  unfold parse_pessession_file
  rw [hex]
  dsimp only
  rw [hjson]
  dsimp only
  rw [assemble_obj_measurements hms]
  have hpos : 0 < (ms₁ ++ m₂ :: ms₃).length := by simp
  rw [if_pos hpos]
  obtain ⟨e2, he2⟩ := exceptMapM_error_of_between ms₁ m₂ ms₃ herr
  rw [he2]

/-- Session text whose first measurement parses cleanly to one record and
whose second measurement contains a data point without a V key. -/
def badPointContent : List Char :=
  "\x7b\"Measurements\":[\x7b\"Curves\":[\x7b\"XAxisDataArray\":\x7b\"DataValues\":[\x7b\"V\":1\x7d]\x7d,\"YAxisDataArray\":\x7b\"DataValues\":[\x7b\"V\":2\x7d]\x7d\x7d]\x7d,\x7b\"Curves\":[\x7b\"XAxisDataArray\":\x7b\"DataValues\":[\x7b\x7d]\x7d,\"YAxisDataArray\":\x7b\"DataValues\":[\x7b\"V\":3\x7d]\x7d\x7d]\x7d]\x7d".data

/-- The first, well-formed measurement of badPointContent. -/
def goodMeasOfBad : Json :=
  Json.obj [("Curves", Json.arr
    [Json.obj
      [("XAxisDataArray", Json.obj [("DataValues", Json.arr [Json.obj [("V", Json.num 1)]])]),
       ("YAxisDataArray", Json.obj [("DataValues", Json.arr [Json.obj [("V", Json.num 2)]])])]])]

/-- The second measurement of badPointContent, whose X data point has no V
key (a KeyError at line 58 of the source). -/
def badMeasOfBad : Json :=
  Json.obj [("Curves", Json.arr
    [Json.obj
      [("XAxisDataArray", Json.obj [("DataValues", Json.arr [Json.obj []])]),
       ("YAxisDataArray", Json.obj [("DataValues", Json.arr [Json.obj [("V", Json.num 3)]])])]])]

theorem exception_discards_all_witness : parse_pessession_file badPointContent = [] :=
  exception_discards_all badPointContent badPointContent
    [("Measurements", Json.arr [goodMeasOfBad, badMeasOfBad])]
    [goodMeasOfBad] badMeasOfBad [] PyErr.keyError rfl rfl rfl rfl

/-! ## Rendering lemmas (claims C7 and C10) -/

theorem foldl_max_le (xs : List Nat) : ∀ x : Nat,
    x ≤ xs.foldl max x ∧ ∀ a ∈ xs, a ≤ xs.foldl max x := by
  induction xs with
  | nil => exact fun x => ⟨le_refl x, fun a ha => absurd ha (List.not_mem_nil a)⟩
  | cons a t ih =>
    intro x
    simp only [List.foldl_cons]
    obtain ⟨h1, h2⟩ := ih (max x a)
    refine ⟨le_trans (le_max_left x a) h1, ?_⟩
    intro b hb
    rcases List.mem_cons.mp hb with hb | hb
    · subst hb
      exact le_trans (le_max_right _ _) h1
    · exact h2 b hb

theorem foldl_max_mem (xs : List Nat) : ∀ x : Nat,
    xs.foldl max x = x ∨ xs.foldl max x ∈ xs := by
  induction xs with
  | nil => exact fun x => Or.inl rfl
  | cons a t ih =>
    intro x
    rcases ih (max x a) with h | h
    · rcases max_choice x a with hm | hm
      · exact Or.inl (by rw [List.foldl_cons, h, hm])
      · exact Or.inr (by rw [List.foldl_cons, h, hm]; exact List.mem_cons_self a t)
    · exact Or.inr (List.mem_cons_of_mem a h)

theorem maxPoints_spec {all_scans : List ScanRecord} (h : all_scans ≠ []) :
    ∃ mp, maxPoints all_scans = .ok mp
      ∧ (∀ r ∈ all_scans, r.potential.length ≤ mp)
      ∧ ∃ r ∈ all_scans, r.potential.length = mp := by
  cases all_scans with
  | nil => exact absurd rfl h
  | cons s rest =>
    refine ⟨(rest.map (fun scan => scan.potential.length)).foldl max s.potential.length,
      by rfl, ?_, ?_⟩
    · intro r hr
      rcases List.mem_cons.mp hr with hr | hr
      · exact hr ▸ (foldl_max_le _ _).1
      · exact (foldl_max_le _ _).2 r.potential.length
          (List.mem_map_of_mem (fun scan => scan.potential.length) hr)
    · rcases foldl_max_mem (rest.map (fun scan => scan.potential.length))
        s.potential.length with hm | hm
      · exact ⟨s, List.mem_cons_self s rest, hm.symm⟩
      · obtain ⟨r, hr, hrl⟩ := List.mem_map.mp hm
        exact ⟨r, List.mem_cons_of_mem s hr, hrl⟩

theorem cellOf_ok {fmt : Json → String} {scan : ScanRecord} (i : Nat)
    (hlen : scan.potential.length = scan.current.length) :
    cellOf fmt i scan =
      .ok (if i < scan.potential.length then
             fmt (scan.potential.getD i .null) ++ "\t" ++ fmt (scan.current.getD i .null) ++ "\t\t"
           else "\t\t\t") := by
  unfold cellOf
  by_cases hi : i < scan.potential.length
  · have hi2 : i < scan.current.length := hlen ▸ hi
    rw [if_pos hi, if_pos hi, List.get?_eq_get hi, List.get?_eq_get hi2]
    dsimp only
    rw [List.getD_eq_getElem?_getD, List.getD_eq_getElem?_getD,
        List.getElem?_eq_getElem hi, List.getElem?_eq_getElem hi2]
    rfl
  · rw [if_neg hi, if_neg hi]

theorem renderDataRows_spec (fmt : Json → String) (all_scans : List ScanRecord)
    (hne : all_scans ≠ [])
    (hlen : ∀ r ∈ all_scans, r.potential.length = r.current.length) :
    ∃ mp rows, maxPoints all_scans = .ok mp
      ∧ renderDataRows fmt all_scans = .ok rows
      ∧ rows.length = mp
      ∧ (∀ r ∈ all_scans, r.potential.length ≤ mp)
      ∧ (∃ r ∈ all_scans, r.potential.length = mp)
      ∧ ∀ i, ∀ h : i < rows.length,
          rows.get ⟨i, h⟩ = String.join (all_scans.map (fun scan =>
            if i < scan.potential.length then
              fmt (scan.potential.getD i .null) ++ "\t" ++ fmt (scan.current.getD i .null) ++ "\t\t"
            else "\t\t\t")) := by
  obtain ⟨mp, hmp, hub, hmem⟩ := maxPoints_spec hne
  have hrow : ∀ i ∈ List.range mp,
      (match exceptMapM (cellOf fmt i) all_scans with
       | .error e => (.error e : Except PyErr String)
       | .ok cells => .ok (String.join cells)) =
        .ok (String.join (all_scans.map (fun scan =>
          if i < scan.potential.length then
            fmt (scan.potential.getD i .null) ++ "\t" ++ fmt (scan.current.getD i .null) ++ "\t\t"
          else "\t\t\t"))) := by
    intro i _
    rw [exceptMapM_congr_ok (fun scan hscan => cellOf_ok i (hlen scan hscan))]
  have hrows := exceptMapM_congr_ok hrow
  refine ⟨mp, (List.range mp).map (fun i => String.join (all_scans.map (fun scan =>
      if i < scan.potential.length then
        fmt (scan.potential.getD i .null) ++ "\t" ++ fmt (scan.current.getD i .null) ++ "\t\t"
      else "\t\t\t"))), hmp, ?_, by simp, hub, hmem, ?_⟩
  · unfold renderDataRows
    rw [hmp]
    dsimp only
    exact hrows
  · intro i h
    simp only [List.get_eq_getElem, List.getElem_map, List.getElem_range]

/-- Records of lengths 3 and 5 used to instantiate the rendering claims. -/
def wideRecords : List ScanRecord :=
  [⟨1, [Json.num 1, Json.num 2, Json.num 3], [Json.num 4, Json.num 5, Json.num 6]⟩,
   ⟨2, [Json.num 1, Json.num 2, Json.num 3, Json.num 4, Json.num 5],
       [Json.num 6, Json.num 7, Json.num 8, Json.num 9, Json.num 10]⟩]

/-- C7: for a non-empty record sequence the rendered table has exactly
max(len(potential)) data rows, and in row i each record in order
contributes its two values followed by two tabs when i is within its
range, and exactly three tab characters otherwise. -/
theorem data_rows_shape (fmt : Json → String) (all_scans : List ScanRecord)
    (hne : all_scans ≠ [])
    (hlen : ∀ r ∈ all_scans, r.potential.length = r.current.length) :
    ∃ mp rows, maxPoints all_scans = .ok mp
      ∧ renderDataRows fmt all_scans = .ok rows
      ∧ rows.length = mp
      ∧ (∀ r ∈ all_scans, r.potential.length ≤ mp)
      ∧ (∃ r ∈ all_scans, r.potential.length = mp)
      ∧ ∀ i, ∀ h : i < rows.length,
          rows.get ⟨i, h⟩ = String.join (all_scans.map (fun scan =>
            if i < scan.potential.length then
              fmt (scan.potential.getD i .null) ++ "\t" ++ fmt (scan.current.getD i .null) ++ "\t\t"
            else "\t\t\t")) :=
  renderDataRows_spec fmt all_scans hne hlen

theorem data_rows_shape_witness :
    ∃ mp rows, maxPoints wideRecords = .ok mp
      ∧ renderDataRows (fun _ => "v") wideRecords = .ok rows
      ∧ rows.length = mp
      ∧ (∀ r ∈ wideRecords, r.potential.length ≤ mp)
      ∧ (∃ r ∈ wideRecords, r.potential.length = mp)
      ∧ ∀ i, ∀ h : i < rows.length,
          rows.get ⟨i, h⟩ = String.join (wideRecords.map (fun scan =>
            if i < scan.potential.length then
              (fun _ => "v") (scan.potential.getD i .null) ++ "\t" ++
                (fun _ => "v") (scan.current.getD i .null) ++ "\t\t"
            else "\t\t\t")) :=
  data_rows_shape (fun _ => "v") wideRecords (List.cons_ne_nil _ _) (by decide)

theorem assemble_ok_inv {doc : Json} {recs : List ScanRecord}
    (h : assemble doc = .ok recs) :
    ∀ r ∈ recs, r.potential.length = r.current.length ∧ 0 < r.potential.length := by
  unfold assemble at h
  cases hc : pyContains doc "Measurements" with
  | error e => rw [hc] at h; cases h
  | ok b =>
    rw [hc] at h
    cases b with
    | false =>
      cases h
      exact fun r hr => absurd hr (List.not_mem_nil r)
    | true =>
      dsimp only at h
      cases hg : pyGetItem doc "Measurements" with
      | error e => rw [hg] at h; cases h
      | ok mv =>
        rw [hg] at h
        dsimp only at h
        cases hl : pyLen mv with
        | error e => rw [hl] at h; cases h
        | ok n =>
          rw [hl] at h
          dsimp only at h
          by_cases hn : 0 < n
          · rw [if_pos hn] at h
            cases hi : pyIter mv with
            | error e => rw [hi] at h; cases h
            | ok ms =>
              rw [hi] at h
              dsimp only at h
              cases hmm : exceptMapM processMeasurement ms with
              | error e => rw [hmm] at h; cases h
              | ok recss =>
                rw [hmm] at h
                dsimp only at h
                cases h
                intro r hr
                obtain ⟨l, hl2, hrl⟩ := List.mem_flatten.mp hr
                obtain ⟨m, _, hpm⟩ := exceptMapM_ok_mem hmm l hl2
                exact (processMeasurement_ok_spec hpm).2 r hrl
          · rw [if_neg hn] at h
            cases h
            exact fun r hr => absurd hr (List.not_mem_nil r)

theorem parse_file_inv (content : List Char) :
    ∀ r ∈ parse_pessession_file content,
      r.potential.length = r.current.length ∧ 0 < r.potential.length := by
  unfold parse_pessession_file
  cases hex : extractPayload (stripBOM content) with
  | error e => exact fun r hr => absurd hr (List.not_mem_nil r)
  | ok span =>
    dsimp only
    cases hj : jsonParse span with
    | none => exact fun r hr => absurd hr (List.not_mem_nil r)
    | some data =>
      dsimp only
      cases ha : assemble data with
      | error e => exact fun r hr => absurd hr (List.not_mem_nil r)
      | ok recs =>
        dsimp only
        exact assemble_ok_inv ha

theorem strFoldl_append (l : List String) : ∀ x y : String,
    l.foldl (fun r s => r ++ s) (x ++ y) = x ++ l.foldl (fun r s => r ++ s) y := by
  induction l with
  | nil => intro x y; rfl
  | cons a t ih =>
    intro x y
    simp only [List.foldl_cons]
    rw [String.append_assoc]
    exact ih x (y ++ a)

theorem strJoin_cons (a : String) (l : List String) :
    String.join (a :: l) = a ++ String.join l := by
  show (a :: l).foldl (fun r s => r ++ s) "" = _
  simp only [List.foldl_cons, String.empty_append]
  have h := strFoldl_append l a ""
  rw [String.append_empty] at h
  exact h

theorem renderFile_ok {fmt : Json → String} {all_scans : List ScanRecord}
    {rows : List String} (h : renderDataRows fmt all_scans = .ok rows) :
    renderFile fmt all_scans = .ok
      (String.join ((List.range all_scans.length).map
          (fun n => "Scan " ++ toString (n + 1) ++ "\t\t\t\t"))
        :: String.join (all_scans.map (fun _ => "Potential(V)\tCurrent(A)\t\t"))
        :: rows) := by
  unfold renderFile
  rw [h]

/-- C10: the maximum over scan lengths that sizes the data rows is only
ever evaluated on a non-empty record list, because a file whose parse
yields no scans is skipped before any output is produced; consequently
every produced output file has at least two header rows and at least one
column group in its first header row. -/
theorem max_only_on_nonempty (fmt : Json → String) (content : List Char)
    (res : Except PyErr (List String))
    (h : convert_file fmt content = some res) :
    parse_pessession_file content ≠ []
    ∧ (maxPoints (parse_pessession_file content)).isOk = true
    ∧ ∃ lines, res = .ok lines ∧ 2 ≤ lines.length
        ∧ ∃ hd restStr, lines.get? 0 = some hd ∧ hd = "Scan 1\t\t\t\t" ++ restStr := by
  unfold convert_file at h
  by_cases hemp : (parse_pessession_file content).isEmpty
  · rw [if_pos hemp] at h; cases h
  · rw [if_neg hemp] at h
    have hne : parse_pessession_file content ≠ [] := by
      intro hh
      rw [List.isEmpty_iff] at hemp
      exact hemp hh
    obtain ⟨mp, rows, hmp, hrows, _, _, _, _⟩ :=
      renderDataRows_spec fmt _ hne (fun r hr => (parse_file_inv content r hr).1)
    cases h
    refine ⟨hne, by rw [hmp]; rfl, ?_⟩
    refine ⟨_, renderFile_ok hrows, by simp, ?_⟩
    have hpos : 0 < (parse_pessession_file content).length := List.length_pos.mpr hne
    obtain ⟨k, hk⟩ : ∃ k, (parse_pessession_file content).length = k + 1 :=
      ⟨(parse_pessession_file content).length - 1, by omega⟩
    refine ⟨_, String.join (((List.range k).map Nat.succ).map
      (fun n => "Scan " ++ toString (n + 1) ++ "\t\t\t\t")), rfl, ?_⟩
    rw [hk, List.range_succ_eq_map, List.map_cons, strJoin_cons]
    rfl

/-- Session text with a single one-point curve, parsed into one record. -/
def goodContent : List Char :=
  "\x7b\"Measurements\":[\x7b\"Curves\":[\x7b\"XAxisDataArray\":\x7b\"DataValues\":[\x7b\"V\":1\x7d]\x7d,\"YAxisDataArray\":\x7b\"DataValues\":[\x7b\"V\":2\x7d]\x7d\x7d]\x7d]\x7d".data

theorem max_only_on_nonempty_witness :
    parse_pessession_file goodContent ≠ []
    ∧ (maxPoints (parse_pessession_file goodContent)).isOk = true
    ∧ ∃ lines,
        (.ok ["Scan 1\t\t\t\t", "Potential(V)\tCurrent(A)\t\t", "v\tv\t\t"]
          : Except PyErr (List String)) = .ok lines
        ∧ 2 ≤ lines.length
        ∧ ∃ hd restStr, lines.get? 0 = some hd ∧ hd = "Scan 1\t\t\t\t" ++ restStr :=
  max_only_on_nonempty (fun _ => "v") goodContent
    (.ok ["Scan 1\t\t\t\t", "Potential(V)\tCurrent(A)\t\t", "v\tv\t\t"]) rfl

/-! ## Characterizing the naive brace scanner (claims C4, C5, C6) -/

theorem depthInt_cons (c : Char) (cs : List Char) :
    depthInt (c :: cs) = braceDelta c + depthInt cs := rfl

theorem braceCount_step (m : Nat) (c : Char) :
    ((m + 1 : Nat) : Int) + braceDelta c =
      ((if c = lbrace then m + 2 else if c = rbrace then m else m + 1 : Nat) : Int) := by
  by_cases h1 : c = lbrace
  · subst h1
    rw [show braceDelta lbrace = 1 by decide, if_pos rfl]
    push_cast
    ring
  · by_cases h2 : c = rbrace
    · subst h2
      rw [show braceDelta rbrace = -1 by decide,
          if_neg (by decide : ¬(rbrace = lbrace)), if_pos rfl]
      push_cast
      ring
    · rw [show braceDelta c = 0 by simp [braceDelta, h1, h2], if_neg h1, if_neg h2]
      push_cast
      ring

theorem scanToClose_none_iff : ∀ (cs : List Char) (n : Nat),
    scanToClose n cs = none ↔
      ∀ k, k ≤ cs.length → (n : Int) + depthInt (cs.take k) ≠ 0 := by
  intro cs
  induction cs with
  | nil =>
    intro n
    cases n with
    | zero =>
      constructor
      · intro h
        exact absurd h (by simp [scanToClose])
      · intro h
        exact absurd (show ((0 : Nat) : Int) + depthInt (([] : List Char).take 0) = 0
          by simp [depthInt]) (h 0 (Nat.le_refl 0))
    | succ m =>
      constructor
      · intro _ k hk
        have hk0 : k = 0 := Nat.le_zero.mp hk
        subst hk0
        show ((m + 1 : Nat) : Int) + depthInt [] ≠ 0
        simp only [depthInt]
        omega
      · intro _
        rfl
  | cons c cs ih =>
    intro n
    cases n with
    | zero =>
      constructor
      · intro h
        exact absurd h (by simp [scanToClose])
      · intro h
        exact absurd (show ((0 : Nat) : Int) + depthInt ((c :: cs).take 0) = 0
          by simp [depthInt]) (h 0 (Nat.zero_le _))
    | succ m =>
      have hunfold : scanToClose (m + 1) (c :: cs) =
          (scanToClose (if c = lbrace then m + 2 else if c = rbrace then m else m + 1) cs).map
            (fun t => c :: t) := rfl
      rw [hunfold, Option.map_eq_none']
      rw [ih (if c = lbrace then m + 2 else if c = rbrace then m else m + 1)]
      constructor
      · intro h k hk
        cases k with
        | zero =>
          show ((m + 1 : Nat) : Int) + depthInt [] ≠ 0
          simp only [depthInt]
          omega
        | succ j =>
          have hj : j ≤ cs.length := Nat.succ_le_succ_iff.mp hk
          have hne := h j hj
          rw [List.take_succ_cons, depthInt_cons, ← add_assoc, braceCount_step]
          exact hne
      · intro h k hk
        have hne := h (k + 1) (Nat.succ_le_succ hk)
        rw [List.take_succ_cons, depthInt_cons, ← add_assoc, braceCount_step] at hne
        exact hne

theorem scanToClose_some_iff : ∀ (cs : List Char) (n : Nat) (t : List Char),
    scanToClose n cs = some t ↔
      ∃ k, k ≤ cs.length ∧ t = cs.take k ∧ (n : Int) + depthInt (cs.take k) = 0 ∧
        ∀ j, j < k → (n : Int) + depthInt (cs.take j) ≠ 0 := by
  intro cs
  induction cs with
  | nil =>
    intro n t
    cases n with
    | zero =>
      constructor
      · intro h
        have h' : some ([] : List Char) = some t := h
        have ht : t = [] := (Option.some.inj h').symm
        subst ht
        exact ⟨0, Nat.le_refl 0, rfl, by simp [depthInt],
          fun j hj => absurd hj (Nat.not_lt_zero j)⟩
      · rintro ⟨k, hk, ht, hd, hj⟩
        have hk0 : k = 0 := Nat.le_zero.mp hk
        subst hk0
        show scanToClose 0 [] = some t
        rw [ht]
        rfl
    | succ m =>
      constructor
      · intro h
        exact absurd h (by simp [scanToClose])
      · rintro ⟨k, hk, ht, hd, hj⟩
        have hk0 : k = 0 := Nat.le_zero.mp hk
        subst hk0
        exfalso
        simp only [List.take_nil, depthInt] at hd
        omega
  | cons c cs ih =>
    intro n t
    cases n with
    | zero =>
      constructor
      · intro h
        have h' : some ([] : List Char) = some t := h
        have ht : t = [] := (Option.some.inj h').symm
        subst ht
        exact ⟨0, Nat.zero_le _, rfl, by simp [depthInt],
          fun j hj => absurd hj (Nat.not_lt_zero j)⟩
      · rintro ⟨k, hk, ht, hd, hj⟩
        cases k with
        | zero =>
          show scanToClose 0 (c :: cs) = some t
          rw [ht]
          rfl
        | succ j =>
          exfalso
          exact hj 0 (Nat.succ_pos j) (by simp [depthInt])
    | succ m =>
      have hunfold : scanToClose (m + 1) (c :: cs) =
          (scanToClose (if c = lbrace then m + 2 else if c = rbrace then m else m + 1) cs).map
            (fun t => c :: t) := rfl
      rw [hunfold]
      constructor
      · intro h
        rw [Option.map_eq_some'] at h
        obtain ⟨t', hsc, htt⟩ := h
        obtain ⟨k', hk', ht', hd', hj'⟩ := (ih _ t').mp hsc
        subst htt
        refine ⟨k' + 1, Nat.succ_le_succ hk', ?_, ?_, ?_⟩
        · rw [List.take_succ_cons, ht']
        · rw [List.take_succ_cons, depthInt_cons, ← add_assoc, braceCount_step]
          exact hd'
        · intro j hj
          cases j with
          | zero =>
            show ((m + 1 : Nat) : Int) + depthInt ((c :: cs).take 0) ≠ 0
            simp only [List.take_zero, depthInt]
            omega
          | succ i =>
            have hi : i < k' := Nat.succ_lt_succ_iff.mp hj
            have hne := hj' i hi
            rw [List.take_succ_cons, depthInt_cons, ← add_assoc, braceCount_step]
            exact hne
      · rintro ⟨k, hk, ht, hd, hj⟩
        cases k with
        | zero =>
          exfalso
          simp only [List.take_zero, depthInt] at hd
          omega
        | succ k' =>
          rw [Option.map_eq_some']
          refine ⟨cs.take k', ?_, ?_⟩
          · apply (ih _ (cs.take k')).mpr
            refine ⟨k', Nat.succ_le_succ_iff.mp hk, rfl, ?_, ?_⟩
            · have hd2 := hd
              rw [List.take_succ_cons, depthInt_cons, ← add_assoc, braceCount_step] at hd2
              exact hd2
            · intro j hjk
              have hne := hj (j + 1) (Nat.succ_lt_succ hjk)
              rw [List.take_succ_cons, depthInt_cons, ← add_assoc, braceCount_step] at hne
              exact hne
          · rw [ht, List.take_succ_cons]

/-- A span at which the naive counter first returns to zero: it starts at
an opening brace, its net brace depth is zero, and the running counter is
never zero at any proper non-empty prefix. -/
def firstBalanced (s : List Char) : Prop :=
  s.head? = some lbrace ∧ depthInt s = 0 ∧
    ∀ k, 0 < k → k < s.length → depthInt (s.take k) ≠ 0

theorem extractPayload_ok_iff : ∀ (content s : List Char),
    extractPayload content = .ok s ↔
      ∃ pre post, content = pre ++ s ++ post ∧ (∀ c ∈ pre, c ≠ lbrace)
        ∧ firstBalanced s := by
  intro content
  induction content with
  | nil =>
    intro s
    constructor
    · intro h
      exact absurd h (by simp [extractPayload])
    · rintro ⟨pre, post, heq, _, hfb⟩
      exfalso
      have hs : s = [] := by
        rcases List.append_eq_nil.mp heq.symm with ⟨h1, _⟩
        exact (List.append_eq_nil.mp h1).2
      rw [hs] at hfb
      cases hfb.1
  | cons c cs ih =>
    intro s
    by_cases hc : c = lbrace
    · subst hc
      have hunfold : extractPayload (lbrace :: cs) =
          (match scanToClose 1 cs with
           | some t => .ok (lbrace :: t)
           | none => .error .incompleteJson) := by
        unfold extractPayload
        rw [if_pos rfl]
      rw [hunfold]
      constructor
      · intro h
        cases hst : scanToClose 1 cs with
        | none => rw [hst] at h; cases h
        | some t =>
          rw [hst] at h
          cases h
          obtain ⟨k, hk, ht, hd, hj⟩ := (scanToClose_some_iff cs 1 t).mp hst
          subst ht
          refine ⟨[], cs.drop k, ?_, ?_, ?_, ?_, ?_⟩
          · rw [List.nil_append]
            show lbrace :: cs = lbrace :: cs.take k ++ cs.drop k
            rw [List.cons_append, List.take_append_drop]
          · intro x hx
            exact absurd hx (List.not_mem_nil x)
          · rfl
          · rw [depthInt_cons, show braceDelta lbrace = 1 by decide]
            have : ((1 : Nat) : Int) + depthInt (cs.take k) = 0 := hd
            omega
          · intro j hj0 hjlt
            have hklen : (cs.take k).length = k := List.length_take_of_le hk
            have hjk : j - 1 < k := by
              simp only [List.length_cons, hklen] at hjlt
              omega
            obtain ⟨i, hi⟩ : ∃ i, j = i + 1 := ⟨j - 1, by omega⟩
            subst hi
            rw [List.take_succ_cons, depthInt_cons, show braceDelta lbrace = 1 by decide]
            rw [List.take_take]
            have hmin : min i k = i := Nat.min_eq_left (by omega)
            rw [hmin]
            have := hj i (by omega)
            have h1 : ((1 : Nat) : Int) = (1 : Int) := by norm_num
            rw [h1] at this
            exact fun hcon => this (by omega)
      · rintro ⟨pre, post, heq, hpre, hfb⟩
        cases pre with
        | cons p pre' =>
          exfalso
          have hp : p = lbrace := by
            have := congrArg List.head? heq
            simp only [List.cons_append, List.head?_cons] at this
            exact (Option.some.inj this).symm
          exact hpre p (List.mem_cons_self p pre') hp
        | nil =>
          rw [List.nil_append] at heq
          cases s with
          | nil => cases hfb.1
          | cons s0 t' =>
            have hs0 : s0 = lbrace := by
              have := hfb.1
              simp only [List.head?_cons] at this
              exact Option.some.inj this
            subst hs0
            have hcs : cs = t' ++ post := by
              simp only [List.cons_append] at heq
              exact (List.cons.inj heq).2
            have hst : scanToClose 1 cs = some t' := by
              apply (scanToClose_some_iff cs 1 t').mpr
              have htake : cs.take t'.length = t' := by
                rw [hcs, List.take_left]
              refine ⟨t'.length, ?_, htake.symm, ?_, ?_⟩
              · rw [hcs, List.length_append]
                omega
              · rw [htake]
                have := hfb.2.1
                rw [depthInt_cons, show braceDelta lbrace = 1 by decide] at this
                have h1 : ((1 : Nat) : Int) = (1 : Int) := by norm_num
                rw [h1]
                omega
              · intro j hjlt
                have htakej : cs.take j = t'.take j := by
                  rw [hcs, List.take_append_of_le_length (by omega)]
                rw [htakej]
                have := hfb.2.2 (j + 1) (Nat.succ_pos j)
                  (by simp only [List.length_cons]; omega)
                rw [List.take_succ_cons, depthInt_cons,
                  show braceDelta lbrace = 1 by decide] at this
                have h1 : ((1 : Nat) : Int) = (1 : Int) := by norm_num
                rw [h1]
                exact fun hcon => this (by omega)
            rw [hst]
    · have hunfold : extractPayload (c :: cs) = extractPayload cs := by
        rw [show extractPayload (c :: cs) =
              (if c = lbrace then
                (match scanToClose 1 cs with
                 | some t => Except.ok (lbrace :: t)
                 | none => Except.error ExtractErr.incompleteJson)
              else extractPayload cs) from rfl,
            if_neg hc]
      rw [hunfold, ih s]
      constructor
      · rintro ⟨pre, post, heq, hpre, hfb⟩
        refine ⟨c :: pre, post, by rw [heq]; rfl, ?_, hfb⟩
        intro x hx
        rcases List.mem_cons.mp hx with hx | hx
        · exact hx ▸ hc
        · exact hpre x hx
      · rintro ⟨pre, post, heq, hpre, hfb⟩
        cases pre with
        | nil =>
          exfalso
          rw [List.nil_append] at heq
          cases s with
          | nil => cases hfb.1
          | cons s0 t' =>
            have hs0 : s0 = lbrace := by
              have := hfb.1
              simp only [List.head?_cons] at this
              exact Option.some.inj this
            have hcseq : c = s0 := by
              simp only [List.cons_append] at heq
              exact (List.cons.inj heq).1
            exact hc (hcseq.trans hs0)
        | cons p pre' =>
          have hceq : c = p ∧ cs = pre' ++ s ++ post := by
            simp only [List.cons_append] at heq
            exact ⟨(List.cons.inj heq).1, (List.cons.inj heq).2⟩
          exact ⟨pre', post, hceq.2, fun x hx => hpre x (List.mem_cons_of_mem p hx), hfb⟩

theorem extractPayload_incomplete_iff : ∀ content : List Char,
    extractPayload content = .error .incompleteJson ↔
      ∃ pre rest, content = pre ++ lbrace :: rest ∧ (∀ c ∈ pre, c ≠ lbrace) ∧
        ∀ k, k ≤ rest.length → (1 : Int) + depthInt (rest.take k) ≠ 0 := by
  intro content
  induction content with
  | nil =>
    constructor
    · intro h
      simp [extractPayload] at h
    · rintro ⟨pre, rest, heq, _, _⟩
      exfalso
      cases pre with
      | nil => simp at heq
      | cons p pre' => simp at heq
  | cons c cs ih =>
    by_cases hc : c = lbrace
    · subst hc
      have hunfold : extractPayload (lbrace :: cs) =
          (match scanToClose 1 cs with
           | some t => .ok (lbrace :: t)
           | none => .error .incompleteJson) := by
        unfold extractPayload
        rw [if_pos rfl]
      rw [hunfold]
      constructor
      · intro h
        cases hst : scanToClose 1 cs with
        | some t => rw [hst] at h; cases h
        | none =>
          have hall := (scanToClose_none_iff cs 1).mp hst
          refine ⟨[], cs, by simp, fun x hx => absurd hx (List.not_mem_nil x), ?_⟩
          intro k hk
          simpa using hall k hk
      · rintro ⟨pre, rest, heq, hpre, hnever⟩
        cases pre with
        | cons p pre' =>
          exfalso
          have hp : p = lbrace := by
            have hh := congrArg List.head? heq
            simp only [List.cons_append, List.head?_cons] at hh
            exact (Option.some.inj hh).symm
          exact hpre p (List.mem_cons_self p pre') hp
        | nil =>
          have hrest : cs = rest := by
            simp only [List.nil_append] at heq
            exact (List.cons.inj heq).2
          subst hrest
          have hst : scanToClose 1 cs = none := by
            apply (scanToClose_none_iff cs 1).mpr
            intro k hk
            simpa using hnever k hk
          rw [hst]
    · have hunfold : extractPayload (c :: cs) = extractPayload cs := by
        rw [show extractPayload (c :: cs) =
              (if c = lbrace then
                (match scanToClose 1 cs with
                 | some t => Except.ok (lbrace :: t)
                 | none => Except.error ExtractErr.incompleteJson)
              else extractPayload cs) from rfl,
            if_neg hc]
      rw [hunfold, ih]
      constructor
      · rintro ⟨pre, rest, heq, hpre, hnever⟩
        refine ⟨c :: pre, rest, by rw [heq]; rfl, ?_, hnever⟩
        intro x hx
        rcases List.mem_cons.mp hx with hx | hx
        · exact hx ▸ hc
        · exact hpre x hx
      · rintro ⟨pre, rest, heq, hpre, hnever⟩
        cases pre with
        | nil =>
          exfalso
          simp only [List.nil_append] at heq
          exact hc (List.cons.inj heq).1
        | cons p pre' =>
          simp only [List.cons_append] at heq
          exact ⟨pre', rest, (List.cons.inj heq).2,
            fun x hx => hpre x (List.mem_cons_of_mem p hx), hnever⟩

/-- C4: the extractor succeeds with span s exactly when s starts at the
first opening brace of the text and extends up to and including the
character at which the naive nesting counter — incremented on every
opening brace and decremented on every closing brace of the raw character
stream, braces inside quoted string literals included — first returns to
zero. -/
theorem extract_first_balanced_span (content s : List Char) :
    extractPayload content = .ok s ↔
      ∃ pre post, content = pre ++ s ++ post ∧ (∀ c ∈ pre, c ≠ lbrace)
        ∧ firstBalanced s :=
  extractPayload_ok_iff content s

theorem extract_first_balanced_span_witness :
    ∃ pre post, "ab\x7bc\x7b\x7dd\x7de".data = pre ++ "\x7bc\x7b\x7dd\x7d".data ++ post
      ∧ (∀ c ∈ pre, c ≠ lbrace) ∧ firstBalanced "\x7bc\x7b\x7dd\x7d".data :=
  (extract_first_balanced_span "ab\x7bc\x7b\x7dd\x7de".data "\x7bc\x7b\x7dd\x7d".data).mp rfl

/-- C5: extraction fails with IncompleteJson exactly when the text contains
an opening brace but the nesting counter, started at the first opening
brace, never returns to zero before the end of the character stream; such
a file yields zero scans. -/
theorem incomplete_iff_never_closes (content : List Char) :
    (extractPayload content = .error .incompleteJson ↔
      ∃ pre rest, content = pre ++ lbrace :: rest ∧ (∀ c ∈ pre, c ≠ lbrace) ∧
        ∀ k, k ≤ rest.length → (1 : Int) + depthInt (rest.take k) ≠ 0)
    ∧ (extractPayload (stripBOM content) = .error .incompleteJson →
        parse_pessession_file content = []) := by
  refine ⟨extractPayload_incomplete_iff content, ?_⟩
  intro h
  unfold parse_pessession_file
  rw [h]

theorem incomplete_iff_never_closes_witness :
    (∃ pre rest, "x\x7b(".data = pre ++ lbrace :: rest ∧ (∀ c ∈ pre, c ≠ lbrace) ∧
       ∀ k, k ≤ rest.length → (1 : Int) + depthInt (rest.take k) ≠ 0)
    ∧ parse_pessession_file "x\x7b(".data = [] :=
  ⟨(incomplete_iff_never_closes "x\x7b(".data).1.mp rfl,
   (incomplete_iff_never_closes "x\x7b(".data).2 rfl⟩

/-- C6 (amended): extraction is idempotent in the sense that applying the
extractor to the exact substring it returned succeeds and returns that
same substring; the substring need not be re-parseable as JSON. -/
theorem extraction_idempotent (content s : List Char)
    (h : extractPayload content = .ok s) : extractPayload s = .ok s := by
  obtain ⟨_, _, _, _, hfb⟩ := (extractPayload_ok_iff content s).mp h
  apply (extractPayload_ok_iff s s).mpr
  exact ⟨[], [], by simp, fun x hx => absurd hx (List.not_mem_nil x), hfb⟩

theorem extraction_idempotent_witness :
    extractPayload "\x7b\x7d".data = .ok "\x7b\x7d".data :=
  extraction_idempotent "x\x7b\x7dy".data "\x7b\x7d".data rfl

/-- C6 counterexample: on the four-character text open-brace, quote, a,
close-brace, extraction succeeds and returns the entire text — so the
extractor applied to its own output succeeds — but the returned span is
not parseable as JSON (its string literal is never closed), refuting the
claim that the substring returned by a successful extraction is always
re-parseable as JSON. -/
theorem extract_ok_but_not_json :
    extractPayload "\x7b\"a\x7d".data = .ok "\x7b\"a\x7d".data
    ∧ jsonParse "\x7b\"a\x7d".data = none :=
  ⟨rfl, rfl⟩

end EchemAnalysis
